import Mathlib

/-!
# Shelgon REPL engine — shallow embedding

A shallow embedding of the REPL control engine of the `shelgon` crate
(`src/command.rs` and `src/renderer.rs`), together with proofs settling the
frozen claims about its specification.

Rust strings are UTF-8 byte buffers indexed by *byte* offsets, while the
engine stores the characters themselves.  We therefore model a Rust `String`
as a `List Char` (Rust `char` = Unicode scalar value = Lean `Char`) and give
byte-indexed versions of the `String` operations the engine uses
(`insert`, `remove`, slicing).  Each of those operations panics in Rust when
the index is not a character boundary; the models return `Option`, `none`
standing for the panic.
-/

namespace Shelgon

/-- A Rust `String`, seen as its list of Unicode scalar values. -/
abbrev Str := List Char

/-- Total number of UTF-8 bytes of a string (Rust `String::len`). -/
def byteLen (s : Str) : Nat := (s.map Char.utf8Size).sum

/-- Whether byte index `i` is a character boundary of `s`
(Rust `str::is_char_boundary`; indices past the end are not boundaries,
matching the panic condition of `String::insert` / slicing). -/
def isBoundary : Str → Nat → Bool
  | _, 0 => true
  | [], _ + 1 => false
  | c :: rest, i + 1 =>
    if c.utf8Size ≤ i + 1 then isBoundary rest (i + 1 - c.utf8Size) else false

/-- Rust `String::insert(i, c)`: insert `c` at byte index `i`.
`none` models the panic when `i` is out of bounds or not a boundary. -/
def insertByte (c : Char) : Str → Nat → Option Str
  | s, 0 => some (c :: s)
  | [], _ + 1 => none
  | d :: rest, i + 1 =>
    if d.utf8Size ≤ i + 1 then (insertByte c rest (i + 1 - d.utf8Size)).map (d :: ·)
    else none

/-- Rust `String::remove(i)`: remove the character starting at byte index `i`.
`none` models the panic when `i` is out of bounds or not a boundary. -/
def removeByte : Str → Nat → Option Str
  | [], _ => none
  | _ :: rest, 0 => some rest
  | d :: rest, i + 1 =>
    if d.utf8Size ≤ i + 1 then (removeByte rest (i + 1 - d.utf8Size)).map (d :: ·)
    else none

/-- Rust slice `s[..i]`.  `none` models the panic when `i` is out of bounds
or not a boundary. -/
def byteTake : Str → Nat → Option Str
  | _, 0 => some []
  | [], _ + 1 => none
  | d :: rest, i + 1 =>
    if d.utf8Size ≤ i + 1 then (byteTake rest (i + 1 - d.utf8Size)).map (d :: ·)
    else none

/-- Rust slice `s[i..]`.  `none` models the panic when `i` is out of bounds
or not a boundary. -/
def byteDrop : Str → Nat → Option Str
  | s, 0 => some s
  | [], _ + 1 => none
  | d :: rest, i + 1 =>
    if d.utf8Size ≤ i + 1 then byteDrop rest (i + 1 - d.utf8Size)
    else none

/-!
## Data model (`src/command.rs`)

The `runtime : Arc<Runtime>` field of `CommandInput` (a shared task-host
handle behind the `tokio` feature) carries no data the engine reads, so it is
omitted from the model.
-/

/-- `command::Prepare`: decision computed by `Execute::prepare`. -/
structure Prepare where
  command : Str
  stdin_required : Bool
  deriving DecidableEq, Repr

/-- `command::CommandOutput`: one history entry. -/
structure CommandOutput where
  prompt : Str
  command : Str
  stdin : List Str
  stdout : List Str
  stderr : List Str
  deriving DecidableEq, Repr

/-- `command::OutputAction`: the executor's directive to the engine. -/
inductive OutputAction where
  | Command : CommandOutput → OutputAction
  | Exit : OutputAction
  | Clear : OutputAction
  deriving DecidableEq, Repr

/-- `command::CommandInput`: input handed to `Execute::execute`. -/
structure CommandInput where
  prompt : Str
  command : Str
  stdin : Option (List Str)
  deriving DecidableEq, Repr

/-- The `command::Execute` trait: a pluggable executor over a context type
`Ctx`, with `anyhow` errors modelled by an abstract error type `ε`.

Rust's `execute` takes `&mut Context` and may have mutated it even on an
`Err` return, so it is modelled as returning the new context alongside the
`Except` result.  `prompt`, `completion` and `prepare` take the context
read-only. -/
structure Executor (Ctx ε : Type) where
  prompt : Ctx → Str
  completion : Ctx → Str → Except ε (Str × List Str)
  prepare : Str → Prepare
  execute : Ctx → CommandInput → Ctx × Except ε OutputAction

/-!
## Engine state (`src/renderer.rs`)
-/

/-- `renderer::State`: the input state machine's state. -/
inductive State where
  /-- `State::Idle(String, usize, Option<Vec<String>>)`: the in-progress
  command, the cursor (a byte offset in Rust), and the optional completion
  candidate list. -/
  | Idle : Str → Nat → Option (List Str) → State
  /-- `State::Running(command::Prepare, Vec<String>)`: the prepared command
  and the stdin lines collected so far. -/
  | Running : Prepare → List Str → State
  deriving DecidableEq, Repr

/-- `renderer::Next`: the control signal the input handler returns to the
driving loop. -/
inductive Next where
  | Continue : Next
  | Exit : Str → Next
  | Clear : Next
  deriving DecidableEq, Repr

/-- The mutable fields of `renderer::App` (the executor itself is immutable
and passed separately; the runtime handle is omitted, see above). -/
structure App (Ctx : Type) where
  ctx : Ctx
  state : State
  history : List CommandOutput
  deriving DecidableEq, Repr

/-- Result of one call of a `&mut self` engine method returning
`anyhow::Result<Next>`: either a value together with the mutated `App`, an
error together with the `App` as mutated up to the error point, or a Rust
panic. -/
inductive StepRes (Ctx ε : Type) where
  | ok : App Ctx → Next → StepRes Ctx ε
  | err : App Ctx → ε → StepRes Ctx ε
  | panicked : StepRes Ctx ε
  deriving DecidableEq, Repr

/-!
## Key events (`crossterm`, as matched in `App::input`)
-/

/-- The `crossterm::event::KeyCode` constructors the engine matches on;
`other` stands for every remaining code (falling to the wildcard arm). -/
inductive KeyCode where
  | char : Char → KeyCode
  | left | right | tab | enter | backspace | up | other : KeyCode
  deriving DecidableEq, Repr

/-- The `crossterm::event::KeyModifiers` values the engine distinguishes:
`NONE`, `SHIFT`, `CONTROL`, and anything else. -/
inductive KeyMods where
  | mnone | mshift | mcontrol | mother : KeyMods
  deriving DecidableEq, Repr

/-- `crossterm::event::KeyEventKind` (`Press`, `Repeat`, `Release`). -/
inductive KeyKind where
  | press | repeatKey | release : KeyKind
  deriving DecidableEq, Repr

/-- A key event. -/
structure KeyEvent where
  code : KeyCode
  modifiers : KeyMods
  kind : KeyKind
  deriving DecidableEq, Repr

/-- A `crossterm::event::Event`: the engine only inspects `Event::Key`;
every other event falls through to `Ok(Next::Continue)`. -/
inductive Event where
  | key : KeyEvent → Event
  | nonKey : Event
  deriving DecidableEq, Repr

/-!
## Engine helpers (`src/renderer.rs`, `impl App`)
-/

variable {Ctx ε : Type}

/-- `stdin.last_mut().map(|i| i.push(c)).unwrap_or_else(|| stdin.push(c.to_string()))`
from the printable-char arm in `Running`: push `c` onto the last line, or
start a new line when none exists. -/
def pushToLast (c : Char) : List Str → List Str
  | [] => [[c]]
  | [l] => [l ++ [c]]
  | l :: rest => l :: pushToLast c rest

/-- `stdin.last_mut().map(|i| i.pop())`: pop the last character of the last
line, if there is a line (popping an empty line is a no-op). -/
def popLastChar : List Str → List Str
  | [] => []
  | [l] => [l.dropLast]
  | l :: rest => l :: popLastChar rest

/-- The `Backspace` handling for `State::Running` in `App::cursor_backspace`:
pop the last char of the last line, then
`if stdin.last().map_or(true, |i| i.is_empty()) { stdin.pop(); }`. -/
def backspaceStdin (lines : List Str) : List Str :=
  let lines' := popLastChar lines
  if (match lines'.getLast? with
      | none => true
      | some l => l.isEmpty) then
    lines'.dropLast
  else lines'

/-- `App::move_cursor_left`: in `Idle` with `cursor > 0`, decrement the
cursor and discard completions; otherwise a no-op. -/
def moveCursorLeft (a : App Ctx) : App Ctx :=
  match a.state with
  | .Idle _ 0 _ => a
  | .Idle cmd (n + 1) _ => { a with state := .Idle cmd n none }
  | .Running _ _ => a

/-- `App::move_cursor_right`: in `Idle` with `cursor < cmd.len()` (byte
length), increment the cursor; otherwise a no-op. -/
def moveCursorRight (a : App Ctx) : App Ctx :=
  match a.state with
  | .Idle cmd cur comp =>
    if cur = byteLen cmd then a
    else { a with state := .Idle cmd (cur + 1) comp }
  | .Running _ _ => a

/-- `App::cursor_backspace`.  In `Idle` with `cursor > 0` the Rust code runs
`cmd.remove(*cursor - 1)`, which panics when `cursor - 1` is not a character
boundary. -/
def cursorBackspace (a : App Ctx) : StepRes Ctx ε :=
  match a.state with
  | .Idle _ 0 _ => .ok a .Continue
  | .Idle cmd (cur + 1) _ =>
    match removeByte cmd cur with
    | none => .panicked
    | some cmd' => .ok { a with state := .Idle cmd' cur none } .Continue
  | .Running prep stdin =>
    .ok { a with state := .Running prep (backspaceStdin stdin) } .Continue

/-- `App::_final_execution`: build the `CommandInput`, call
`executor.execute` (the `?` propagates its error before any further
mutation), then reset the state to `Idle("", 0, None)` and act on the
returned `OutputAction`. -/
def finalExecution (ex : Executor Ctx ε) (a : App Ctx) (cmd : Str)
    (stdin : Option (List Str)) : StepRes Ctx ε :=
  match ex.execute a.ctx { prompt := ex.prompt a.ctx, command := cmd, stdin := stdin } with
  | (ctx', .error e) => .err { a with ctx := ctx' } e
  | (ctx', .ok (.Command co)) =>
    .ok { ctx := ctx', state := .Idle [] 0 none, history := a.history ++ [co] } .Continue
  | (ctx', .ok .Exit) =>
    .ok { ctx := ctx', state := .Idle [] 0 none, history := a.history } (.Exit [])
  | (ctx', .ok .Clear) =>
    .ok { ctx := ctx', state := .Idle [] 0 none, history := [] } .Clear

/-- `App::continue_execution`: in `Running`, finalize with the collected
stdin lines (`Some(stdin)`); in `Idle`, `Ok(Next::Continue)`. -/
def continueExecution (ex : Executor Ctx ε) (a : App Ctx) : StepRes Ctx ε :=
  match a.state with
  | .Running prep stdin => finalExecution ex a prep.command (some stdin)
  | .Idle _ _ _ => .ok a .Continue

/-- `App::execute_command`: in `Idle`, call `prepare` on the buffer, switch
to `Running(prepare, [])`, then either wait for stdin or finalize at once
with `stdin = None`. -/
def executeCommand (ex : Executor Ctx ε) (a : App Ctx) : StepRes Ctx ε :=
  match a.state with
  | .Running _ _ => .ok a .Continue
  | .Idle cmd _ _ =>
    if (ex.prepare cmd).stdin_required then
      .ok { a with state := .Running (ex.prepare cmd) [] } .Continue
    else finalExecution ex { a with state := .Running (ex.prepare cmd) [] } cmd none

/-- Refinement of the completion candidates after a character insertion
(the `Some(cmp)` branch of the printable-char arm in `Idle`):
`cmp.iter().filter_map(|i| if i.starts_with(&cmd[..cursor]) { Some(i[cursor..].to_string()) } else { None })`.
`pre` is the already-sliced `&cmd[..cursor]`; the slice `i[cursor..]` panics
(`none`) when `cursor` is not a boundary of `i`.  `starts_with` compares
UTF-8 bytes, which for whole-character strings coincides with list-prefix on
the characters. -/
def refineCands (pre : Str) (cur : Nat) : List Str → Option (List Str)
  | [] => some []
  | i :: rest =>
    if pre.isPrefixOf i then
      match byteDrop i cur, refineCands pre cur rest with
      | some s, some r => some (s :: r)
      | _, _ => none
    else refineCands pre cur rest

/-- The printable-character arm of `App::input`
(`(KeyCode::Char(c), KeyModifiers::NONE | KeyModifiers::SHIFT, _)`):
in `Idle`, `cmd.insert(*cursor, c); *cursor += 1;` then refine any active
completion set (slicing `cmd[..cursor]`, which can panic); in `Running`,
append to the last stdin line. -/
def charInsert (c : Char) (a : App Ctx) : StepRes Ctx ε :=
  match a.state with
  | .Idle cmd cur comp =>
    match insertByte c cmd cur with
    | none => .panicked
    | some cmd' =>
      match comp with
      | none => .ok { a with state := .Idle cmd' (cur + 1) none } .Continue
      | some cands =>
        match byteTake cmd' (cur + 1) with
        | none => .panicked
        | some pre =>
          match refineCands pre (cur + 1) cands with
          | none => .panicked
          | some cands' => .ok { a with state := .Idle cmd' (cur + 1) (some cands') } .Continue
  | .Running prep stdin =>
    .ok { a with state := .Running prep (pushToLast c stdin) } .Continue

/-- The `Tab` arm of `App::input`: only in `Idle` with no active completion
set and the cursor at the byte length of the buffer, call
`executor.completion`, append its deterministic part to the buffer, move the
cursor to the new end, and install the candidate list. -/
def tabComplete (ex : Executor Ctx ε) (a : App Ctx) : StepRes Ctx ε :=
  match a.state with
  | .Idle cmd cur none =>
    if cur = byteLen cmd then
      match ex.completion a.ctx cmd with
      | .error e => .err a e
      | .ok (fixed, varCands) =>
        let cmd' := cmd ++ fixed
        .ok { a with state := .Idle cmd' (byteLen cmd') (some varCands) } .Continue
    else .ok a .Continue
  | _ => .ok a .Continue

/-- The `Up` arm of `App::input`: recall `history.last()`'s command into the
buffer (cursor to its end, completions untouched); no-op when the history is
empty or the state is `Running`. -/
def upKey (a : App Ctx) : StepRes Ctx ε :=
  match (a.history.getLast?).map (·.command) with
  | none => .ok a .Continue
  | some last =>
    match a.state with
    | .Idle _ _ comp => .ok { a with state := .Idle last (byteLen last) comp } .Continue
    | .Running _ _ => .ok a .Continue

/-- The `Ctrl-D` / `Ctrl-C` arm of `App::input`: in `Running`,
`self.continue_execution()?;` — the `?` propagates an error, but a
successful `Next` value is discarded and control falls through to
`Ok(Next::Continue)`; in `Idle`, `return Ok(Next::Exit("".to_string()))`. -/
def ctrlDC (ex : Executor Ctx ε) (a : App Ctx) : StepRes Ctx ε :=
  match a.state with
  | .Running _ _ =>
    match continueExecution ex a with
    | .ok a' _ => .ok a' .Continue
    | .err a' e => .err a' e
    | .panicked => .panicked
  | .Idle _ _ _ => .ok a (.Exit [])

/-- The `Enter` arm of `App::input`: in `Idle`,
`return self.execute_command();`; in `Running`, push a new empty stdin
line. -/
def enterKey (ex : Executor Ctx ε) (a : App Ctx) : StepRes Ctx ε :=
  match a.state with
  | .Idle _ _ _ => executeCommand ex a
  | .Running prep stdin =>
    .ok { a with state := .Running prep (stdin ++ [[]]) } .Continue

/-- `App::input`: dispatch one `crossterm` event, reproducing the arm order
of the Rust `match`: release events are ignored first, then the specific key
arms apply, and everything else falls through to `Ok(Next::Continue)`.
The Rust literal patterns `Char('l')` / `Char('d')` / `Char('c')` under
`CONTROL` are written as explicit equality tests; all the arms are mutually
exclusive, so this preserves the first-match semantics. -/
def input (ex : Executor Ctx ε) (ev : Event) (a : App Ctx) : StepRes Ctx ε :=
  match ev with
  | .nonKey => .ok a .Continue
  | .key ke =>
    if ke.kind = .release then .ok a .Continue
    else
      match ke.code, ke.modifiers with
      | .char c, .mcontrol =>
        if c = 'l' then .ok { a with history := [] } .Continue
        else if c = 'd' then ctrlDC ex a
        else if c = 'c' then ctrlDC ex a
        else .ok a .Continue
      | .left, .mnone => .ok (moveCursorLeft a) .Continue
      | .right, .mnone => .ok (moveCursorRight a) .Continue
      | .tab, .mnone => tabComplete ex a
      | .char c, .mnone => charInsert c a
      | .char c, .mshift => charInsert c a
      | .backspace, .mnone => cursorBackspace a
      | .enter, .mnone => enterKey ex a
      | .up, .mnone => upKey a
      | _, _ => .ok a .Continue

/-- Outcome of running the driving loop of `App::execute` over a finite
list of events (frame drawing has no effect on the state and is omitted):
still looping, exited with a message, aborted with an error, or panicked. -/
inductive LoopRes (Ctx ε : Type) where
  | pending : App Ctx → LoopRes Ctx ε
  | exited : App Ctx → Str → LoopRes Ctx ε
  | failed : App Ctx → ε → LoopRes Ctx ε
  | panickedL : LoopRes Ctx ε
  deriving DecidableEq, Repr

/-- The driving loop of `App::execute`: feed events to `App::input` one at a
time; `Continue` and `Clear` keep looping, `Exit` breaks with its message,
and errors/panics abort. -/
def runLoop (ex : Executor Ctx ε) : List Event → App Ctx → LoopRes Ctx ε
  | [], a => .pending a
  | e :: evs, a =>
    match input ex e a with
    | .panicked => .panickedL
    | .err a' er => .failed a' er
    | .ok a' .Continue => runLoop ex evs a'
    | .ok a' .Clear => runLoop ex evs a'
    | .ok a' (.Exit m) => .exited a' m

/-!
## Concrete executors and events used to instantiate the claims

These are instances of the `Execute` contract, in the role of the pluggable
executors a user of the crate supplies.
-/

/-- The echo executor of `src/command/echosh.rs` / `examples/echosh.rs`:
`prepare` demands stdin exactly for the command `cat`, `execute` echoes the
command back and never fails. -/
def catEx : Executor Unit ε where
  prompt := fun _ => "$".toList
  completion := fun _ _ => .ok ([], [])
  prepare := fun cmd =>
    if cmd = "cat".toList then { command := cmd, stdin_required := true }
    else { command := cmd, stdin_required := false }
  execute := fun ctx inp =>
    (ctx, .ok (.Command { prompt := inp.prompt, command := inp.command,
                          stdin := inp.stdin.getD [], stdout := [inp.command],
                          stderr := [] }))

/-- A minimal executor: default completion, never requires stdin, echoes. -/
def unitEx : Executor Unit ε where
  prompt := fun _ => "$".toList
  completion := fun _ _ => .ok ([], [])
  prepare := fun cmd => { command := cmd, stdin_required := false }
  execute := fun ctx inp =>
    (ctx, .ok (.Command { prompt := inp.prompt, command := inp.command,
                          stdin := inp.stdin.getD [], stdout := [],
                          stderr := [] }))

/-- An executor whose `execute` always answers with the `Exit` directive. -/
def exitEx : Executor Unit ε where
  prompt := fun _ => "$".toList
  completion := fun _ _ => .ok ([], [])
  prepare := fun cmd => { command := cmd, stdin_required := false }
  execute := fun ctx _ => (ctx, .ok .Exit)

/-- An executor whose `execute` always answers with the `Clear` directive. -/
def clearEx : Executor Unit ε where
  prompt := fun _ => "$".toList
  completion := fun _ _ => .ok ([], [])
  prepare := fun cmd => { command := cmd, stdin_required := false }
  execute := fun ctx _ => (ctx, .ok .Clear)

/-- Dictionary-based completion candidates: the suffixes of the dictionary
words extending `cmd`. -/
def dictComplete (dict : List Str) (cmd : Str) : List Str :=
  dict.filterMap (fun d => if cmd.isPrefixOf d then some (d.drop cmd.length) else none)

/-- An executor whose completion suggests the words of a fixed dictionary:
a suggestion is valid precisely when buffer ++ suffix is a dictionary
word. -/
def dictEx (dict : List Str) : Executor Unit ε where
  prompt := fun _ => "$".toList
  completion := fun _ cmd => .ok ([], dictComplete dict cmd)
  prepare := fun cmd => { command := cmd, stdin_required := false }
  execute := fun ctx inp =>
    (ctx, .ok (.Command { prompt := inp.prompt, command := inp.command,
                          stdin := inp.stdin.getD [], stdout := [inp.command],
                          stderr := [] }))

/-- A key press of a printable character with no modifiers. -/
def chEv (c : Char) : Event := .key { code := .char c, modifiers := .mnone, kind := .press }

/-- The `Enter` key press. -/
def enterEv : Event := .key { code := .enter, modifiers := .mnone, kind := .press }

/-- The `Tab` key press. -/
def tabEv : Event := .key { code := .tab, modifiers := .mnone, kind := .press }

/-- The `Up` key press. -/
def upEv : Event := .key { code := .up, modifiers := .mnone, kind := .press }

/-- The `Left` key press. -/
def leftEv : Event := .key { code := .left, modifiers := .mnone, kind := .press }

/-- The `Right` key press. -/
def rightEv : Event := .key { code := .right, modifiers := .mnone, kind := .press }

/-- The `Backspace` key press. -/
def bsEv : Event := .key { code := .backspace, modifiers := .mnone, kind := .press }

/-- The `Ctrl-D` key press. -/
def ctrlDEv : Event := .key { code := .char 'd', modifiers := .mcontrol, kind := .press }

/-- The initial application state: `State::Idle(String::new(), 0, None)`,
empty history (from `App::new_with_executor`). -/
def initApp (c : Ctx) : App Ctx := { ctx := c, state := .Idle [] 0 none, history := [] }

/-- An executor whose `execute` always fails with a fixed error value. -/
def errEx : Executor Unit Unit where
  prompt := fun _ => "$".toList
  completion := fun _ _ => .ok ([], [])
  prepare := fun cmd => { command := cmd, stdin_required := false }
  execute := fun ctx _ => (ctx, .error ())

/-!
## Specification predicates
-/

/-- The spec's cursor invariant `0 ≤ cursor ≤ length(buffer)` for `Idle`
states (the lower bound is inherent in `Nat`; `length` is Rust's byte
length). -/
def cursorOK : State → Prop
  | .Idle cmd cur _ => cur ≤ byteLen cmd
  | .Running _ _ => True

/-- The spec's completion-consistency invariant, made concrete for the
dictionary executor `dictEx dict`: every suggestion appended after the
buffer must be a completion the executor could actually offer, i.e. a
dictionary word extending the buffer. -/
def dictConsistent (dict : List Str) : State → Prop
  | .Idle cmd _ (some cands) => ∀ s ∈ cands, (cmd ++ s) ∈ dict
  | _ => True

/-- The cursor-affecting `Idle` key events named by the claim: printable
character, Backspace, Left, Right, Tab and Up (all plain presses). -/
def isEditKey : Event → Bool
  | .key { code := .char _, modifiers := .mnone, kind := .press } => true
  | .key { code := .char _, modifiers := .mshift, kind := .press } => true
  | .key { code := .backspace, modifiers := .mnone, kind := .press } => true
  | .key { code := .left, modifiers := .mnone, kind := .press } => true
  | .key { code := .right, modifiers := .mnone, kind := .press } => true
  | .key { code := .tab, modifiers := .mnone, kind := .press } => true
  | .key { code := .up, modifiers := .mnone, kind := .press } => true
  | _ => false

/-- `Steps ex a evs b`: feeding the events `evs` one at a time through
`App::input` takes the application from `a` to `b`, every step returning
`Ok` (the intermediate `Next` values are those the driving loop consumes). -/
inductive Steps (ex : Executor Ctx ε) : App Ctx → List Event → App Ctx → Prop where
  | nil (a : App Ctx) : Steps ex a [] a
  | cons {a b c : App Ctx} {e : Event} {evs : List Event} {n : Next} :
      input ex e a = .ok b n → Steps ex b evs c → Steps ex a (e :: evs) c

/-!
## Byte-operation lemmas
-/

@[simp] theorem byteLen_nil : byteLen [] = 0 := rfl

@[simp] theorem byteLen_cons (c : Char) (s : Str) :
    byteLen (c :: s) = c.utf8Size + byteLen s := by
  simp [byteLen]

/-- A successful `String::insert` implies the index was in bounds, and the
byte length grows by the size of the inserted character. -/
theorem insertByte_some {c : Char} {s : Str} :
    ∀ {i : Nat} {s' : Str}, insertByte c s i = some s' →
      i ≤ byteLen s ∧ byteLen s' = byteLen s + c.utf8Size := by
  induction s with
  | nil =>
    intro i s' h
    cases i with
    | zero =>
      simp only [insertByte, Option.some.injEq] at h
      subst h; simp
    | succ n => simp [insertByte] at h
  | cons d rest ih =>
    intro i s' h
    cases i with
    | zero =>
      simp only [insertByte, Option.some.injEq] at h
      subst h
      simp [byteLen_cons]
      omega
    | succ n =>
      rw [insertByte] at h
      split at h
      · rcases Option.map_eq_some'.mp h with ⟨t, ht, rfl⟩
        obtain ⟨h1, h2⟩ := ih ht
        refine ⟨?_, ?_⟩
        · simp only [byteLen_cons]
          omega
        · simp only [byteLen_cons, h2]
          omega
      · exact absurd h (by simp)

/-- A successful `String::remove` leaves the index in bounds of the result. -/
theorem removeByte_le {s : Str} :
    ∀ {i : Nat} {s' : Str}, removeByte s i = some s' → i ≤ byteLen s' := by
  induction s with
  | nil => intro i s' h; simp [removeByte] at h
  | cons d rest ih =>
    intro i s' h
    cases i with
    | zero => simp
    | succ n =>
      rw [removeByte] at h
      split at h
      · rcases Option.map_eq_some'.mp h with ⟨t, ht, rfl⟩
        have h1 := ih ht
        simp only [byteLen_cons]
        omega
      · exact absurd h (by simp)

/-- A successful slice `s[..i]` is a prefix of `s` of byte length `i`. -/
theorem byteTake_some {s : Str} :
    ∀ {i : Nat} {p : Str}, byteTake s i = some p → p <+: s ∧ byteLen p = i := by
  induction s with
  | nil =>
    intro i p h
    cases i with
    | zero =>
      simp only [byteTake, Option.some.injEq] at h
      subst h; simp
    | succ n => simp [byteTake] at h
  | cons d rest ih =>
    intro i p h
    cases i with
    | zero =>
      simp only [byteTake, Option.some.injEq] at h
      subst h; simp
    | succ n =>
      rw [byteTake] at h
      split at h
      · rcases Option.map_eq_some'.mp h with ⟨t, ht, rfl⟩
        obtain ⟨h1, h2⟩ := ih ht
        refine ⟨List.cons_prefix_cons.mpr ⟨rfl, h1⟩, ?_⟩
        simp only [byteLen_cons, h2]
        omega
      · exact absurd h (by simp)

/-- Slicing `p ++ s` from the byte length of `p` succeeds and yields `s`. -/
theorem byteDrop_byteLen : ∀ (p s : Str), byteDrop (p ++ s) (byteLen p) = some s := by
  intro p
  induction p with
  | nil => intro s; simp [byteDrop]
  | cons d rest ih =>
    intro s
    have hpos : 1 ≤ d.utf8Size := Char.utf8Size_pos d
    have hrw : d.utf8Size + byteLen rest = (d.utf8Size + byteLen rest - 1) + 1 := by omega
    simp only [List.cons_append, byteLen_cons]
    rw [hrw, byteDrop]
    have hle : d.utf8Size ≤ (d.utf8Size + byteLen rest - 1) + 1 := by omega
    rw [if_pos hle]
    have : (d.utf8Size + byteLen rest - 1) + 1 - d.utf8Size = byteLen rest := by omega
    rw [this]
    exact ih s

/-- The candidate refinement performed on a character insertion, at the
byte length of the already-typed prefix, never panics and equals the
evident `filterMap`. -/
theorem refineCands_eq (pre : Str) (cands : List Str) :
    refineCands pre (byteLen pre) cands
      = some (cands.filterMap fun i =>
          if pre.isPrefixOf i then some (i.drop pre.length) else none) := by
  induction cands with
  | nil => simp [refineCands]
  | cons i rest ih =>
    rw [refineCands]
    by_cases hp : pre.isPrefixOf i
    · have hpre : pre <+: i := List.isPrefixOf_iff_prefix.mp hp
      have heq : pre ++ i.drop pre.length = i := List.prefix_iff_eq_append.mp hpre
      have hdrop : byteDrop i (byteLen pre) = some (i.drop pre.length) := by
        conv_lhs => rw [← heq]
        exact byteDrop_byteLen pre (i.drop pre.length)
      rw [if_pos hp, hdrop, ih]
      simp [List.filterMap_cons, hpre]
    · have hnp : ¬ pre <+: i := fun hh => hp <| List.isPrefixOf_iff_prefix.mpr hh
      rw [if_neg hp, ih]
      simp [List.filterMap_cons, hnp]

/-!
## Preservation of the cursor invariant by every engine operation
-/

theorem finalExecution_ok_state {ex : Executor Ctx ε} {a : App Ctx} {cmd : Str}
    {stdin : Option (List Str)} {a' : App Ctx} {n : Next}
    (h : finalExecution ex a cmd stdin = .ok a' n) : a'.state = .Idle [] 0 none := by
  unfold finalExecution at h
  split at h
  · exact absurd h (by simp)
  all_goals (injection h with h1 h2 ; subst h1 ; rfl)

theorem finalExecution_cursorOK {ex : Executor Ctx ε} {a : App Ctx} {cmd : Str}
    {stdin : Option (List Str)} {a' : App Ctx} {n : Next}
    (h : finalExecution ex a cmd stdin = .ok a' n) : cursorOK a'.state := by
  rw [finalExecution_ok_state h]
  simp [cursorOK]

theorem continueExecution_cursorOK {ex : Executor Ctx ε} {a a' : App Ctx} {n : Next}
    (hok : cursorOK a.state) (h : continueExecution ex a = .ok a' n) : cursorOK a'.state := by
  unfold continueExecution at h
  split at h
  · exact finalExecution_cursorOK h
  · injection h with h1 h2 ; subst h1 ; exact hok

theorem executeCommand_cursorOK {ex : Executor Ctx ε} {a a' : App Ctx} {n : Next}
    (h : executeCommand ex a = .ok a' n) : cursorOK a'.state := by
  unfold executeCommand at h
  split at h
  · next prep stdin heq =>
      injection h with h1 h2 ; subst h1
      rw [heq] ; trivial
  · split at h
    · injection h with h1 h2 ; subst h1 ; trivial
    · exact finalExecution_cursorOK h

theorem ctrlDC_cursorOK {ex : Executor Ctx ε} {a a' : App Ctx} {n : Next}
    (hok : cursorOK a.state) (h : ctrlDC ex a = .ok a' n) : cursorOK a'.state := by
  unfold ctrlDC at h
  split at h
  · split at h
    · next a1 n1 hceq =>
        injection h with h1 h2 ; subst h1
        exact continueExecution_cursorOK hok hceq
    · exact absurd h (by simp)
    · exact absurd h (by simp)
  · injection h with h1 h2 ; subst h1 ; exact hok

theorem enterKey_cursorOK {ex : Executor Ctx ε} {a a' : App Ctx} {n : Next}
    (h : enterKey ex a = .ok a' n) : cursorOK a'.state := by
  unfold enterKey at h
  split at h
  · exact executeCommand_cursorOK h
  · injection h with h1 h2 ; subst h1 ; trivial

theorem upKey_cursorOK {a a' : App Ctx} {n : Next}
    (hok : cursorOK a.state) (h : upKey (ε := ε) a = .ok a' n) : cursorOK a'.state := by
  unfold upKey at h
  split at h
  · injection h with h1 h2 ; subst h1 ; exact hok
  · split at h <;> (injection h with h1 h2 ; subst h1)
    · simp [cursorOK]
    · exact hok

theorem charInsert_cursorOK {c : Char} {a a' : App Ctx} {n : Next}
    (h : charInsert (ε := ε) c a = .ok a' n) : cursorOK a'.state := by
  unfold charInsert at h
  split at h
  · split at h
    · exact absurd h (by simp)
    · next cmd' hins =>
        obtain ⟨hle, hlen⟩ := insertByte_some hins
        have hpos := Char.utf8Size_pos c
        split at h
        · injection h with h1 h2 ; subst h1
          simp only [cursorOK, hlen]
          omega
        · split at h
          · exact absurd h (by simp)
          · split at h
            · exact absurd h (by simp)
            · injection h with h1 h2 ; subst h1
              simp only [cursorOK, hlen]
              omega
  · injection h with h1 h2 ; subst h1 ; trivial

theorem cursorBackspace_cursorOK {a a' : App Ctx} {n : Next}
    (h : cursorBackspace (ε := ε) a = .ok a' n) : cursorOK a'.state := by
  unfold cursorBackspace at h
  split at h
  · next cmd comp heq =>
      injection h with h1 h2 ; subst h1
      rw [heq] ; simp [cursorOK]
  · split at h
    · exact absurd h (by simp)
    · next cmd' hrem =>
        injection h with h1 h2 ; subst h1
        exact removeByte_le hrem
  · injection h with h1 h2 ; subst h1 ; trivial

theorem moveCursorLeft_cursorOK {a : App Ctx}
    (hok : cursorOK a.state) : cursorOK (moveCursorLeft a).state := by
  unfold moveCursorLeft
  split
  · exact hok
  · next cmd cur comp heq =>
      rw [heq] at hok
      simp only [cursorOK] at hok ⊢
      omega
  · exact hok

theorem moveCursorRight_cursorOK {a : App Ctx}
    (hok : cursorOK a.state) : cursorOK (moveCursorRight a).state := by
  unfold moveCursorRight
  split
  · next cmd cur comp heq =>
      split
      · exact hok
      · next hne =>
          rw [heq] at hok
          simp only [cursorOK] at hok ⊢
          omega
  · exact hok

theorem tabComplete_cursorOK {ex : Executor Ctx ε} {a a' : App Ctx} {n : Next}
    (hok : cursorOK a.state) (h : tabComplete ex a = .ok a' n) : cursorOK a'.state := by
  unfold tabComplete at h
  split at h
  · split at h
    · split at h
      · exact absurd h (by simp)
      · injection h with h1 h2 ; subst h1
        simp [cursorOK]
    · injection h with h1 h2 ; subst h1 ; exact hok
  · injection h with h1 h2 ; subst h1 ; exact hok

/-!
## Dispatch lemmas: which handler each key event reaches
-/

theorem input_char (ex : Executor Ctx ε) (c : Char) (a : App Ctx) :
    input ex (chEv c) a = charInsert c a := rfl

theorem input_enter (ex : Executor Ctx ε) (a : App Ctx) :
    input ex enterEv a = enterKey ex a := rfl

theorem input_tab (ex : Executor Ctx ε) (a : App Ctx) :
    input ex tabEv a = tabComplete ex a := rfl

theorem input_up (ex : Executor Ctx ε) (a : App Ctx) :
    input ex upEv a = upKey a := rfl

theorem input_backspace (ex : Executor Ctx ε) (a : App Ctx) :
    input ex bsEv a = cursorBackspace a := rfl

theorem input_ctrlD (ex : Executor Ctx ε) (a : App Ctx) :
    input ex ctrlDEv a = ctrlDC ex a := rfl

theorem ctrlDC_running (ex : Executor Ctx ε) (ctx0 : Ctx) (prep : Prepare)
    (lines : List Str) (hist : List CommandOutput) :
    ctrlDC ex ⟨ctx0, .Running prep lines, hist⟩
      = (match finalExecution ex ⟨ctx0, .Running prep lines, hist⟩ prep.command (some lines) with
         | .ok a' _ => .ok a' .Continue
         | .err a' e => .err a' e
         | .panicked => .panicked) := rfl

theorem runLoop_cons_ok {ex : Executor Ctx ε} {e : Event} {evs : List Event} {a a' : App Ctx}
    (h : input ex e a = .ok a' .Continue) : runLoop ex (e :: evs) a = runLoop ex evs a' := by
  have h0 : runLoop ex (e :: evs) a
      = (match input ex e a with
         | .panicked => (.panickedL : LoopRes Ctx ε)
         | .err a' er => .failed a' er
         | .ok a' .Continue => runLoop ex evs a'
         | .ok a' .Clear => runLoop ex evs a'
         | .ok a' (.Exit m) => .exited a' m) := rfl
  rw [h0, h]

/-- Popping the last character of the last line, when a last line exists. -/
theorem popLastChar_append (ls : List Str) (l : Str) :
    popLastChar (ls ++ [l]) = ls ++ [l.dropLast] := by
  induction ls with
  | nil => rfl
  | cons x ls ih =>
    cases ls with
    | nil => rfl
    | cons y ys =>
      show x :: popLastChar ((y :: ys) ++ [l]) = x :: ((y :: ys) ++ [l.dropLast])
      rw [ih]

/-- `String::insert` panics exactly when the index is not a character
boundary (linking the `Option` model to Rust's panic condition). -/
theorem insertByte_none_iff (c : Char) :
    ∀ (s : Str) (i : Nat), insertByte c s i = none ↔ isBoundary s i = false := by
  intro s
  induction s with
  | nil =>
    intro i
    cases i with
    | zero => simp [insertByte, isBoundary]
    | succ n => simp [insertByte, isBoundary]
  | cons d rest ih =>
    intro i
    cases i with
    | zero => simp [insertByte, isBoundary]
    | succ n =>
      rw [insertByte, isBoundary]
      split
      · rw [Option.map_eq_none', ih]
      · simp

/-- Every successful `App::input` step preserves the cursor invariant
`cursor ≤ byte length of the buffer` of `Idle` states. -/
theorem input_cursorOK {ex : Executor Ctx ε} {ev : Event} {a a' : App Ctx} {n : Next}
    (hok : cursorOK a.state) (h : input ex ev a = .ok a' n) : cursorOK a'.state := by
  unfold input at h
  split at h
  · injection h with h1 h2 ; subst h1 ; exact hok
  · split at h
    · injection h with h1 h2 ; subst h1 ; exact hok
    · split at h
      · split at h
        · injection h with h1 h2 ; subst h1 ; exact hok
        · split at h
          · exact ctrlDC_cursorOK hok h
          · split at h
            · exact ctrlDC_cursorOK hok h
            · injection h with h1 h2 ; subst h1 ; exact hok
      · injection h with h1 h2 ; subst h1 ; exact moveCursorLeft_cursorOK hok
      · injection h with h1 h2 ; subst h1 ; exact moveCursorRight_cursorOK hok
      · exact tabComplete_cursorOK hok h
      · exact charInsert_cursorOK h
      · exact charInsert_cursorOK h
      · exact cursorBackspace_cursorOK h
      · exact enterKey_cursorOK h
      · exact upKey_cursorOK hok h
      · injection h with h1 h2 ; subst h1 ; exact hok

/-!
## The claims
-/

/-- Claim C7: for every sequence of input events applied to an Idle state
(character insertion, Backspace, Left, Right, Tab, Up), the cursor satisfies
`0 ≤ cursor ≤ length(buffer)` after every step.  (`Steps` makes every
intermediate state of the run a final state of a shorter run, so this
indeed bounds the cursor after every step; the lower bound is inherent in
`Nat`.) -/
theorem c7_cursor_invariant {Ctx ε : Type} (ex : Executor Ctx ε) (a b : App Ctx)
    (evs : List Event) (hrun : Steps ex a evs b) :
    (∀ e ∈ evs, isEditKey e = true) → cursorOK a.state → cursorOK b.state := by
  induction hrun with
  | nil a => exact fun _ h => h
  | cons hstep _ ih =>
    exact fun hkeys hstart =>
      ih (fun e he => hkeys e (List.mem_cons_of_mem _ he)) (input_cursorOK hstart hstep)

/-- Witness for C7: a concrete one-step run from the initial state. -/
theorem c7_cursor_invariant_witness : cursorOK (State.Idle ['a'] 1 none) := by
  have hstep : input (unitEx (ε := Unit)) (chEv 'a') (initApp ())
      = .ok { ctx := (), state := .Idle ['a'] 1 none, history := [] } .Continue := by decide
  exact c7_cursor_invariant (unitEx (ε := Unit)) (initApp ())
    { ctx := (), state := .Idle ['a'] 1 none, history := [] } [chEv 'a']
    (Steps.cons hstep (Steps.nil _)) (by decide) (by simp [initApp, cursorOK])

/-- Claim C8: if `execute` returns an error during finalize, the input
handler returns that same error unchanged (not caught or transformed), and
the finalize modifies neither History nor the engine state: no
`CommandOutput` is appended and the reset to Idle does not happen (the
`.err` application carries the same `st` and `hist`). -/
theorem c8_error_propagation {Ctx ε : Type} (ex : Executor Ctx ε) (ctx0 ctx' : Ctx)
    (st : State) (hist : List CommandOutput) (cmd : Str) (stdin : Option (List Str)) (e : ε)
    (hexec : ex.execute ctx0 { prompt := ex.prompt ctx0, command := cmd, stdin := stdin }
      = (ctx', .error e)) :
    finalExecution ex ⟨ctx0, st, hist⟩ cmd stdin = .err ⟨ctx', st, hist⟩ e ∧
    (∀ prep lines, st = .Running prep lines → cmd = prep.command → stdin = some lines →
      input ex ctrlDEv ⟨ctx0, st, hist⟩ = .err ⟨ctx', st, hist⟩ e) := by
  have hfin : finalExecution ex ⟨ctx0, st, hist⟩ cmd stdin = .err ⟨ctx', st, hist⟩ e := by
    simp [finalExecution, hexec]
  refine ⟨hfin, ?_⟩
  intro prep lines hst hcmd hstdin
  subst hst
  subst hcmd
  subst hstdin
  rw [input_ctrlD, ctrlDC_running, hfin]

/-- Witness for C8: the always-failing executor in a Running state. -/
theorem c8_error_propagation_witness :
    finalExecution errEx ⟨(), .Running { command := "x".toList, stdin_required := true } [], []⟩
        "x".toList (some [])
      = .err ⟨(), .Running { command := "x".toList, stdin_required := true } [], []⟩ () ∧
    input errEx ctrlDEv ⟨(), .Running { command := "x".toList, stdin_required := true } [], []⟩
      = .err ⟨(), .Running { command := "x".toList, stdin_required := true } [], []⟩ () := by
  have h := c8_error_propagation errEx () ()
    (.Running { command := "x".toList, stdin_required := true } []) [] "x".toList (some []) ()
    rfl
  exact ⟨h.1, h.2 { command := "x".toList, stdin_required := true } [] rfl rfl rfl⟩

/-- Claim C10: pressing Enter in Idle with an empty buffer is not skipped:
`prepare` is invoked with the empty string (first conjunct: the resulting
Running state holds `prepare("")`), and when its `stdin_required` is false,
`execute` is called with the empty command; on a `Command` result the
executor's output for the empty command is appended to History. -/
theorem c10_empty_enter {Ctx ε : Type} (ex : Executor Ctx ε) (ctx0 : Ctx)
    (cur : Nat) (comp : Option (List Str)) (hist : List CommandOutput) :
    ((ex.prepare []).stdin_required = true →
      input ex enterEv ⟨ctx0, .Idle [] cur comp, hist⟩
        = .ok ⟨ctx0, .Running (ex.prepare []) [], hist⟩ .Continue) ∧
    (∀ ctx' out, (ex.prepare []).stdin_required = false →
      ex.execute ctx0 { prompt := ex.prompt ctx0, command := [], stdin := none }
        = (ctx', .ok (.Command out)) →
      input ex enterEv ⟨ctx0, .Idle [] cur comp, hist⟩
        = .ok ⟨ctx', .Idle [] 0 none, hist ++ [out]⟩ .Continue) := by
  constructor
  · intro h
    rw [input_enter]
    show executeCommand ex ⟨ctx0, .Idle [] cur comp, hist⟩ = _
    simp [executeCommand, h]
  · intro ctx' out h hexec
    rw [input_enter]
    show executeCommand ex ⟨ctx0, .Idle [] cur comp, hist⟩ = _
    simp [executeCommand, h, finalExecution, hexec]

/-- Witness for C10: Enter on an empty buffer with the echo executor. -/
theorem c10_empty_enter_witness :
    input (unitEx (ε := Unit)) enterEv ⟨(), .Idle [] 0 none, []⟩
      = .ok ⟨(), .Idle [] 0 none,
          [{ prompt := "$".toList, command := [], stdin := [], stdout := [], stderr := [] }]⟩
        .Continue := by
  have h := c10_empty_enter (unitEx (ε := Unit)) () 0 none []
  exact h.2 () { prompt := "$".toList, command := [], stdin := [], stdout := [], stderr := [] }
    rfl rfl

/-- Claim C5 (Scenario A): for any executor whose `prepare("cat")` returns
a `Prepare` with command `"cat"` and `stdin_required` true: typing `cat` then Enter puts the
engine in `Running(Prepare{"cat",true}, [])`; pressing Enter twice, typing
`hi`, then Ctrl-D calls `execute` with `stdin = ["", "hi"]` (the hypothesis
`hexec` pins `execute` at exactly that input); the resulting `CommandOutput`
is appended to History and the state returns to `Idle("",0,none)`. -/
theorem c5_scenario_a {Ctx ε : Type} (ex : Executor Ctx ε) (ctx0 ctx1 : Ctx)
    (h0 : List CommandOutput) (out : CommandOutput)
    (hprep : ex.prepare "cat".toList = { command := "cat".toList, stdin_required := true })
    (hexec : ex.execute ctx0 ⟨ex.prompt ctx0, "cat".toList, some [[], "hi".toList]⟩
      = (ctx1, .ok (.Command out))) :
    runLoop ex [chEv 'c', chEv 'a', chEv 't', enterEv] ⟨ctx0, .Idle [] 0 none, h0⟩
      = .pending ⟨ctx0, .Running { command := "cat".toList, stdin_required := true } [], h0⟩ ∧
    runLoop ex [chEv 'c', chEv 'a', chEv 't', enterEv, enterEv, enterEv,
        chEv 'h', chEv 'i', ctrlDEv] ⟨ctx0, .Idle [] 0 none, h0⟩
      = .pending ⟨ctx1, .Idle [] 0 none, h0 ++ [out]⟩ := by
  have hprep' : ex.prepare ['c', 'a', 't']
      = { command := ['c', 'a', 't'], stdin_required := true } := hprep
  have hexec' : ex.execute ctx0 ⟨ex.prompt ctx0, ['c', 'a', 't'], some [[], ['h', 'i']]⟩
      = (ctx1, .ok (.Command out)) := hexec
  have s1 : input ex (chEv 'c') ⟨ctx0, .Idle [] 0 none, h0⟩
      = .ok ⟨ctx0, .Idle "c".toList 1 none, h0⟩ .Continue := rfl
  have s2 : input ex (chEv 'a') ⟨ctx0, .Idle "c".toList 1 none, h0⟩
      = .ok ⟨ctx0, .Idle "ca".toList 2 none, h0⟩ .Continue := rfl
  have s3 : input ex (chEv 't') ⟨ctx0, .Idle "ca".toList 2 none, h0⟩
      = .ok ⟨ctx0, .Idle "cat".toList 3 none, h0⟩ .Continue := rfl
  have s4 : input ex enterEv ⟨ctx0, .Idle "cat".toList 3 none, h0⟩
      = .ok ⟨ctx0, .Running { command := "cat".toList, stdin_required := true } [], h0⟩
          .Continue := by
    rw [input_enter]
    show executeCommand ex ⟨ctx0, .Idle "cat".toList 3 none, h0⟩ = _
    simp [executeCommand, hprep, hprep']
  have s5 : input ex enterEv
        ⟨ctx0, .Running { command := "cat".toList, stdin_required := true } [], h0⟩
      = .ok ⟨ctx0, .Running { command := "cat".toList, stdin_required := true } [[]], h0⟩
          .Continue := rfl
  have s6 : input ex enterEv
        ⟨ctx0, .Running { command := "cat".toList, stdin_required := true } [[]], h0⟩
      = .ok ⟨ctx0, .Running { command := "cat".toList, stdin_required := true } [[], []], h0⟩
          .Continue := rfl
  have s7 : input ex (chEv 'h')
        ⟨ctx0, .Running { command := "cat".toList, stdin_required := true } [[], []], h0⟩
      = .ok ⟨ctx0, .Running { command := "cat".toList, stdin_required := true }
          [[], "h".toList], h0⟩ .Continue := rfl
  have s8 : input ex (chEv 'i')
        ⟨ctx0, .Running { command := "cat".toList, stdin_required := true } [[], "h".toList], h0⟩
      = .ok ⟨ctx0, .Running { command := "cat".toList, stdin_required := true }
          [[], "hi".toList], h0⟩ .Continue := rfl
  have hfin : finalExecution ex
        ⟨ctx0, .Running { command := "cat".toList, stdin_required := true } [[], "hi".toList], h0⟩
        "cat".toList (some [[], "hi".toList])
      = .ok ⟨ctx1, .Idle [] 0 none, h0 ++ [out]⟩ .Continue := by
    simp [finalExecution, hexec, hexec']
  have s9 : input ex ctrlDEv
        ⟨ctx0, .Running { command := "cat".toList, stdin_required := true } [[], "hi".toList], h0⟩
      = .ok ⟨ctx1, .Idle [] 0 none, h0 ++ [out]⟩ .Continue := by
    rw [input_ctrlD, ctrlDC_running]
    rw [show ({ command := "cat".toList, stdin_required := true } : Prepare).command
        = "cat".toList from rfl]
    rw [hfin]
  constructor
  · rw [runLoop_cons_ok s1, runLoop_cons_ok s2, runLoop_cons_ok s3, runLoop_cons_ok s4]
    rfl
  · rw [runLoop_cons_ok s1, runLoop_cons_ok s2, runLoop_cons_ok s3, runLoop_cons_ok s4,
        runLoop_cons_ok s5, runLoop_cons_ok s6, runLoop_cons_ok s7, runLoop_cons_ok s8,
        runLoop_cons_ok s9]
    rfl

/-- Witness for C5: the concrete `cat` executor of the crate's examples. -/
theorem c5_scenario_a_witness :
    runLoop (catEx (ε := Unit)) [chEv 'c', chEv 'a', chEv 't', enterEv] (initApp ())
      = .pending ⟨(), .Running { command := "cat".toList, stdin_required := true } [], []⟩ ∧
    runLoop (catEx (ε := Unit)) [chEv 'c', chEv 'a', chEv 't', enterEv, enterEv, enterEv,
        chEv 'h', chEv 'i', ctrlDEv] (initApp ())
      = .pending ⟨(), .Idle [] 0 none,
          [{ prompt := "$".toList, command := "cat".toList, stdin := [[], "hi".toList],
             stdout := ["cat".toList], stderr := [] }]⟩ :=
  c5_scenario_a (catEx (ε := Unit)) () () []
    { prompt := "$".toList, command := "cat".toList, stdin := [[], "hi".toList],
      stdout := ["cat".toList], stderr := [] }
    (by decide) rfl

/-- Claim C6: in Running, a Backspace that empties the only remaining stdin
line leaves the state Running with zero stdin lines (not Idle), and a
subsequent Ctrl-D finalizes with `stdin = Some([])` (the hypothesis of the
second conjunct pins `execute` at stdin `some []`, not `none`). -/
theorem c6_backspace_empty_running {Ctx ε : Type} (ex : Executor Ctx ε) (ctx0 : Ctx)
    (prep : Prepare) (c : Char) (hist : List CommandOutput) :
    input ex bsEv ⟨ctx0, .Running prep [[c]], hist⟩
      = .ok ⟨ctx0, .Running prep [], hist⟩ .Continue ∧
    (∀ ctx' out, ex.execute ctx0 ⟨ex.prompt ctx0, prep.command, some []⟩
        = (ctx', .ok (.Command out)) →
      input ex ctrlDEv ⟨ctx0, .Running prep [], hist⟩
        = .ok ⟨ctx', .Idle [] 0 none, hist ++ [out]⟩ .Continue) := by
  constructor
  · rw [input_backspace]
    rfl
  · intro ctx' out hexec
    rw [input_ctrlD, ctrlDC_running]
    have hfin : finalExecution ex ⟨ctx0, .Running prep [], hist⟩ prep.command (some [])
        = .ok ⟨ctx', .Idle [] 0 none, hist ++ [out]⟩ .Continue := by
      simp [finalExecution, hexec]
    rw [hfin]

/-- Witness for C6: the `cat` executor, one-character line `"h"`. -/
theorem c6_backspace_empty_running_witness :
    input (catEx (ε := Unit)) bsEv
        ⟨(), .Running { command := "cat".toList, stdin_required := true } ["h".toList], []⟩
      = .ok ⟨(), .Running { command := "cat".toList, stdin_required := true } [], []⟩
          .Continue ∧
    input (catEx (ε := Unit)) ctrlDEv
        ⟨(), .Running { command := "cat".toList, stdin_required := true } [], []⟩
      = .ok ⟨(), .Idle [] 0 none,
          [{ prompt := "$".toList, command := "cat".toList, stdin := [],
             stdout := ["cat".toList], stderr := [] }]⟩ .Continue := by
  have h := c6_backspace_empty_running (catEx (ε := Unit)) ()
    { command := "cat".toList, stdin_required := true } 'h' []
  exact ⟨h.1, h.2 ()
    { prompt := "$".toList, command := "cat".toList, stdin := [],
      stdout := ["cat".toList], stderr := [] } rfl⟩

/-- Claim C1, counterexample: with an executor whose `execute` returns the
`Exit` directive, Ctrl-D in `Running` makes the input handler return
`Continue`, not an `Exit` signal — the directive of this finalize path is
silently discarded (`self.continue_execution()?;` drops the `Next` value
and control falls through to `Ok(Next::Continue)`). -/
theorem c1_ctrl_d_exit_directive_dropped :
    input (exitEx (ε := Unit)) ctrlDEv
        ⟨(), .Running { command := "c".toList, stdin_required := true } [], []⟩
      = .ok ⟨(), .Idle [] 0 none, []⟩ .Continue ∧
    ¬ ∃ (b : App Unit) (m : Str), input (exitEx (ε := Unit)) ctrlDEv
        ⟨(), .Running { command := "c".toList, stdin_required := true } [], []⟩
      = .ok b (.Exit m) := by
  have h1 : input (exitEx (ε := Unit)) ctrlDEv
      ⟨(), .Running { command := "c".toList, stdin_required := true } [], []⟩
      = .ok ⟨(), .Idle [] 0 none, []⟩ .Continue := by decide
  refine ⟨h1, ?_⟩
  rintro ⟨b, m, h⟩
  rw [h1] at h
  simp at h

/-- Claim C1 amended: on an Enter-in-Idle finalize (`stdin_required` false)
an `Exit` directive from `execute` is returned as an `Exit` signal and a
`Clear` directive as a `Clear` signal; but on the Ctrl-C/Ctrl-D-in-Running
finalize path every successful directive is discarded and the handler
returns `Continue` (only errors propagate there). -/
theorem c1_finalize_directive_amended {Ctx ε : Type} (ex : Executor Ctx ε)
    (ctx0 ctx' : Ctx) (hist : List CommandOutput) :
    (∀ cmd cur comp, (ex.prepare cmd).stdin_required = false →
      ex.execute ctx0 ⟨ex.prompt ctx0, cmd, none⟩ = (ctx', .ok .Exit) →
      input ex enterEv ⟨ctx0, .Idle cmd cur comp, hist⟩
        = .ok ⟨ctx', .Idle [] 0 none, hist⟩ (.Exit [])) ∧
    (∀ cmd cur comp, (ex.prepare cmd).stdin_required = false →
      ex.execute ctx0 ⟨ex.prompt ctx0, cmd, none⟩ = (ctx', .ok .Clear) →
      input ex enterEv ⟨ctx0, .Idle cmd cur comp, hist⟩
        = .ok ⟨ctx', .Idle [] 0 none, []⟩ .Clear) ∧
    (∀ prep lines out, ex.execute ctx0 ⟨ex.prompt ctx0, prep.command, some lines⟩
        = (ctx', .ok out) →
      ∃ b, input ex ctrlDEv ⟨ctx0, .Running prep lines, hist⟩ = .ok b .Continue) := by
  refine ⟨?_, ?_, ?_⟩
  · intro cmd cur comp h hexec
    rw [input_enter]
    show executeCommand ex ⟨ctx0, .Idle cmd cur comp, hist⟩ = _
    simp [executeCommand, h, finalExecution, hexec]
  · intro cmd cur comp h hexec
    rw [input_enter]
    show executeCommand ex ⟨ctx0, .Idle cmd cur comp, hist⟩ = _
    simp [executeCommand, h, finalExecution, hexec]
  · intro prep lines out hexec
    rw [input_ctrlD, ctrlDC_running]
    cases out with
    | Command co =>
      have hfin : finalExecution ex ⟨ctx0, .Running prep lines, hist⟩ prep.command (some lines)
          = .ok ⟨ctx', .Idle [] 0 none, hist ++ [co]⟩ .Continue := by
        simp [finalExecution, hexec]
      exact ⟨_, by rw [hfin]⟩
    | Exit =>
      have hfin : finalExecution ex ⟨ctx0, .Running prep lines, hist⟩ prep.command (some lines)
          = .ok ⟨ctx', .Idle [] 0 none, hist⟩ (.Exit []) := by
        simp [finalExecution, hexec]
      exact ⟨_, by rw [hfin]⟩
    | Clear =>
      have hfin : finalExecution ex ⟨ctx0, .Running prep lines, hist⟩ prep.command (some lines)
          = .ok ⟨ctx', .Idle [] 0 none, []⟩ .Clear := by
        simp [finalExecution, hexec]
      exact ⟨_, by rw [hfin]⟩

/-- Witness for the amended C1: Exit and Clear surface on the Enter path;
the Exit directive is swallowed on the Ctrl-D-in-Running path. -/
theorem c1_finalize_directive_amended_witness :
    input (exitEx (ε := Unit)) enterEv ⟨(), .Idle "c".toList 1 none, []⟩
      = .ok ⟨(), .Idle [] 0 none, []⟩ (.Exit []) ∧
    input (clearEx (ε := Unit)) enterEv ⟨(), .Idle "c".toList 1 none, []⟩
      = .ok ⟨(), .Idle [] 0 none, []⟩ .Clear ∧
    ∃ b, input (exitEx (ε := Unit)) ctrlDEv
        ⟨(), .Running { command := "c".toList, stdin_required := true } [], []⟩
      = .ok b .Continue := by
  refine ⟨?_, ?_, ?_⟩
  · exact (c1_finalize_directive_amended (exitEx (ε := Unit)) () () []).1
      "c".toList 1 none rfl rfl
  · exact (c1_finalize_directive_amended (clearEx (ε := Unit)) () () []).2.1
      "c".toList 1 none rfl rfl
  · exact (c1_finalize_directive_amended (exitEx (ε := Unit)) () () []).2.2
      { command := "c".toList, stdin_required := true } [] .Exit rfl

/-- Claim C3, counterexample: in Running with stdin lines `["hi", ""]`, a
Backspace drops the already-empty last line (result `["hi"]`), although the
claim states an already-empty last line is not dropped (which would leave
`["hi", ""]`). -/
theorem c3_backspace_counterexample :
    input (unitEx (ε := Unit)) bsEv
        ⟨(), .Running { command := "cat".toList, stdin_required := true } ["hi".toList, []], []⟩
      = .ok ⟨(), .Running { command := "cat".toList, stdin_required := true } ["hi".toList], []⟩
          .Continue ∧
    (["hi".toList] : List Str) ≠ ["hi".toList, []] := by decide

/-- Claim C3 amended: Backspace in Running pops the last character of the
last stdin line and then drops that line precisely when it is empty after
the pop — whether it became empty by this very pop or was already empty
before it; with no lines at all the key is a no-op. -/
theorem c3_backspace_amended {Ctx ε : Type} (ex : Executor Ctx ε) (ctx0 : Ctx)
    (prep : Prepare) (lines : List Str) (hist : List CommandOutput) :
    (lines = [] →
      input ex bsEv ⟨ctx0, .Running prep lines, hist⟩
        = .ok ⟨ctx0, .Running prep [], hist⟩ .Continue) ∧
    (∀ ls l, lines = ls ++ [l] → l.dropLast ≠ [] →
      input ex bsEv ⟨ctx0, .Running prep lines, hist⟩
        = .ok ⟨ctx0, .Running prep (ls ++ [l.dropLast]), hist⟩ .Continue) ∧
    (∀ ls l, lines = ls ++ [l] → l.dropLast = [] →
      input ex bsEv ⟨ctx0, .Running prep lines, hist⟩
        = .ok ⟨ctx0, .Running prep ls, hist⟩ .Continue) := by
  refine ⟨?_, ?_, ?_⟩
  · rintro rfl
    rw [input_backspace]
    rfl
  · rintro ls l rfl hne
    rw [input_backspace]
    show StepRes.ok ⟨ctx0, .Running prep (backspaceStdin (ls ++ [l])), hist⟩ .Continue = _
    have hbs : backspaceStdin (ls ++ [l]) = ls ++ [l.dropLast] := by
      unfold backspaceStdin
      rw [popLastChar_append]
      simp [List.getLast?_concat, List.isEmpty_iff, hne]
    rw [hbs]
  · rintro ls l rfl hemp
    rw [input_backspace]
    show StepRes.ok ⟨ctx0, .Running prep (backspaceStdin (ls ++ [l])), hist⟩ .Continue = _
    have hbs : backspaceStdin (ls ++ [l]) = ls := by
      unfold backspaceStdin
      rw [popLastChar_append, hemp]
      simp [List.getLast?_concat]
    rw [hbs]

/-- Witness for the amended C3: a one-character line is popped to empty and
dropped; a two-character line just loses its last character. -/
theorem c3_backspace_amended_witness :
    input (unitEx (ε := Unit)) bsEv
        ⟨(), .Running { command := "cat".toList, stdin_required := true } ["hi".toList], []⟩
      = .ok ⟨(), .Running { command := "cat".toList, stdin_required := true } ["h".toList], []⟩
          .Continue := by
  have h := (c3_backspace_amended (unitEx (ε := Unit)) ()
    { command := "cat".toList, stdin_required := true } ["hi".toList] []).2.1
    [] "hi".toList rfl (by decide)
  exact h

/-- Claim C9 (code bug): the Idle cursor counts keypresses while the buffer
is indexed in bytes; after typing the two-byte character `é` the cursor is
byte offset 1, which is not a character boundary of the buffer, and typing
one further character panics in `String::insert` (and the rendering split
would panic at the same offset). -/
theorem c9_multibyte_cursor_panic :
    runLoop (unitEx (ε := Unit)) [chEv 'é'] (initApp ())
      = .pending ⟨(), .Idle ['é'] 1 none, []⟩ ∧
    isBoundary ['é'] 1 = false ∧
    runLoop (unitEx (ε := Unit)) [chEv 'é', chEv 'a'] (initApp ()) = .panickedL := by
  refine ⟨by decide, by decide, by decide⟩

/-- Claim C2, counterexample: in `Idle("a", 1, Some(["bc"]))` the candidate
`"bc"` does start with the typed character `b`, so by the claim it should
survive as `"c"`; the code instead compares the candidate with the whole
updated buffer `"ab"` and removes it, leaving an empty candidate list. -/
theorem c2_refinement_counterexample :
    input (unitEx (ε := Unit)) (chEv 'b')
        ⟨(), .Idle "a".toList 1 (some ["bc".toList]), []⟩
      = .ok ⟨(), .Idle "ab".toList 2 (some []), []⟩ .Continue ∧
    "bc".toList.head? = some 'b' ∧
    (some ([] : List Str)) ≠ some ["c".toList] := by decide

/-- Claim C2 amended: a candidate survives the insertion precisely when the
candidate has the entire updated buffer prefix up to the cursor (old text
plus the typed character) as a prefix, and each survivor is replaced by its
remainder beyond that prefix; non-matching candidates are removed and no
candidate is ever added. -/
theorem c2_refinement_amended {Ctx ε : Type} (ex : Executor Ctx ε) (ctx0 : Ctx)
    (hist : List CommandOutput) (cmd cmd' pre : Str) (cur : Nat) (cands : List Str) (c : Char)
    (hins : insertByte c cmd cur = some cmd')
    (htake : byteTake cmd' (cur + 1) = some pre) :
    input ex (chEv c) ⟨ctx0, .Idle cmd cur (some cands), hist⟩
      = .ok ⟨ctx0, .Idle cmd' (cur + 1)
          (some (cands.filterMap fun i =>
            if pre.isPrefixOf i then some (i.drop pre.length) else none)), hist⟩ .Continue ∧
    (∀ s, s ∈ (cands.filterMap fun i =>
        if pre.isPrefixOf i then some (i.drop pre.length) else none)
      ↔ ∃ i ∈ cands, pre.isPrefixOf i ∧ s = i.drop pre.length) := by
  obtain ⟨hpfx, hlen⟩ := byteTake_some htake
  have href : refineCands pre (cur + 1) cands
      = some (cands.filterMap fun i =>
          if pre.isPrefixOf i then some (i.drop pre.length) else none) := by
    rw [← hlen]
    exact refineCands_eq pre cands
  constructor
  · rw [input_char]
    show charInsert c ⟨ctx0, .Idle cmd cur (some cands), hist⟩ = _
    simp [charInsert, hins, htake, href]
  · intro s
    simp only [List.mem_filterMap]
    constructor
    · rintro ⟨i, hi, hif⟩
      by_cases hp : pre.isPrefixOf i
      · rw [if_pos hp] at hif
        exact ⟨i, hi, hp, (Option.some.inj hif).symm⟩
      · rw [if_neg hp] at hif
        exact absurd hif (by simp)
    · rintro ⟨i, hi, hp, rfl⟩
      exact ⟨i, hi, by rw [if_pos hp]⟩

/-- Witness for the amended C2: buffer `"a"`, candidates `["abc", "x"]`,
typing `b` keeps exactly the candidate extending `"ab"`, stripped to its
remainder `"c"`. -/
theorem c2_refinement_amended_witness :
    input (unitEx (ε := Unit)) (chEv 'b')
        ⟨(), .Idle "a".toList 1 (some ["abc".toList, "x".toList]), []⟩
      = .ok ⟨(), .Idle "ab".toList 2 (some ["c".toList]), []⟩ .Continue :=
  (c2_refinement_amended (unitEx (ε := Unit)) () [] "a".toList "ab".toList "ab".toList 1
    ["abc".toList, "x".toList] 'b' (by decide) (by decide)).1

/-- Claim C4, counterexample: with the dictionary executor over `["aab"]`,
typing `a`, Tab (installing the consistent candidate `"ab"`), then typing
`b` leaves the surviving suggestion `""`, and `"ab" ++ "" = "ab"` is not a
word the completion could offer — the character-insertion refinement does
not preserve the consistency invariant (and Up, which keeps the candidates
while replacing the buffer, does not either). -/
theorem c4_consistency_counterexample :
    runLoop (dictEx (ε := Unit) ["aab".toList]) [chEv 'a', tabEv, chEv 'b'] (initApp ())
      = .pending ⟨(), .Idle "ab".toList 2 (some [[]]), []⟩ ∧
    ¬ dictConsistent ["aab".toList] (.Idle "ab".toList 2 (some [[]])) := by
  constructor
  · decide
  · show ¬ ∀ s ∈ ([[]] : List Str), ("ab".toList ++ s) ∈ (["aab".toList] : List Str)
    decide

/-- Claim C4 amended: the consistency invariant does hold at the moment Tab
installs the completion set — every installed suggestion appended after the
buffer is a word the dictionary executor's completion offers for the buffer
as typed so far — but it is not preserved by later buffer changes
(character insertion, or Up retaining the set across a buffer
replacement). -/
theorem c4_consistency_amended (dict : List Str) (cmd : Str) (cur : Nat)
    (hist : List CommandOutput) (hcur : cur = byteLen cmd) :
    input (dictEx (ε := Unit) dict) tabEv ⟨(), .Idle cmd cur none, hist⟩
      = .ok ⟨(), .Idle cmd (byteLen cmd) (some (dictComplete dict cmd)), hist⟩ .Continue ∧
    dictConsistent dict (.Idle cmd (byteLen cmd) (some (dictComplete dict cmd))) := by
  constructor
  · subst hcur
    rw [input_tab]
    show tabComplete (dictEx (ε := Unit) dict) ⟨(), .Idle cmd (byteLen cmd) none, hist⟩ = _
    simp [tabComplete, dictEx]
  · show ∀ s ∈ dictComplete dict cmd, (cmd ++ s) ∈ dict
    intro s hs
    rcases List.mem_filterMap.mp hs with ⟨d, hd, hif⟩
    by_cases hp : cmd.isPrefixOf d
    · rw [if_pos hp] at hif
      rw [← Option.some.inj hif]
      have hp' : cmd <+: d := List.isPrefixOf_iff_prefix.mp hp
      rw [List.prefix_iff_eq_append.mp hp']
      exact hd
    · rw [if_neg hp] at hif
      exact absurd hif (by simp)

/-- Witness for the amended C4: Tab on buffer `"a"` against the dictionary
`["ab"]` installs the consistent candidate `"b"`. -/
theorem c4_consistency_amended_witness :
    input (dictEx (ε := Unit) ["ab".toList]) tabEv ⟨(), .Idle "a".toList 1 none, []⟩
      = .ok ⟨(), .Idle "a".toList 1 (some ["b".toList]), []⟩ .Continue ∧
    dictConsistent ["ab".toList] (.Idle "a".toList 1 (some ["b".toList])) :=
  c4_consistency_amended ["ab".toList] "a".toList 1 [] (by decide)

end Shelgon


